import Mathlib

/-
Verification of the Meetly slot-matching and scoring engine
(src/recommender.py) against its natural-language specification.

Shallow embedding conventions:
- Text is modelled as a list of characters (abbrev `Str`), because the
  Python code manipulates strings with `.lower()`, `.strip()`,
  `.split(',')`, `" ".join(...)` and substring containment; each of those
  operations is embedded below as a structural recursion so that concrete
  inputs evaluate inside the kernel.
- Timestamps are integers (naive timestamps, already timezone-stripped as
  the code does with `.replace(tzinfo=None)`); in the weekly generator a
  datetime is `day * 1440 + minute_of_day`.
- Scores are exact rationals; Python computes them as floats, with the
  same ratios of small integers.
- Python dictionaries queried with `.get(key, default)` are modelled as
  total functions already carrying the default for absent keys.
-/

namespace Meetly

/-- Text as a list of characters. -/
abbrev Str := List Char

/-- Python `str.lower()` on the characters of the text. -/
def toLowerStr (s : Str) : Str := s.map Char.toLower

/-- Whitespace recognised by `str.strip()` (the forms occurring in data). -/
def isSpaceChar (c : Char) : Bool := c = ' ' || c = '\t' || c = '\n' || c = '\r'

/-- Python `str.strip()`: drop leading and trailing whitespace. -/
def stripStr (s : Str) : Str :=
  ((s.dropWhile isSpaceChar).reverse.dropWhile isSpaceChar).reverse

/-- Python `str.split(',')`: split on every comma; `""` yields `[""]`. -/
def splitCommas : Str → List Str
  | [] => [[]]
  | c :: cs =>
    match splitCommas cs with
    | [] => [[]]
    | g :: gs => if c = ',' then [] :: g :: gs else (c :: g) :: gs

/-- Does `hay` start with `needle`? -/
def startsWithStr : Str → Str → Bool
  | [], _ => true
  | _ :: _, [] => false
  | a :: as, b :: bs => a == b && startsWithStr as bs

/-- Python substring containment `needle in hay`. -/
def containsStr (hay needle : Str) : Bool :=
  match hay with
  | [] => needle.isEmpty
  | _ :: t => startsWithStr needle hay || containsStr t needle

/-- Python `sep.join(parts)`. -/
def joinSep (sep : Str) : List Str → Str
  | [] => []
  | [x] => x
  | x :: y :: rest => x ++ sep ++ joinSep sep (y :: rest)

/-- Deduplication keeping the first occurrence of each element; the Python
code accumulates matched tags in a `set`, which holds each tag once; the
set is embedded as a duplicate-free list in first-encounter order. -/
def dedupFirst (seen : List Str) : List Str → List Str
  | [] => []
  | x :: xs =>
    if seen.contains x then dedupFirst seen xs
    else x :: dedupFirst (x :: seen) xs

/-- One busy calendar interval `{start, end}` (the Python dict); the `end`
field is named `stop` because `end` is reserved in Lean. Timestamps are
naive integers, timezone already stripped. -/
structure BusyInterval where
  start : Int
  stop : Int
deriving DecidableEq

/-- Function `check_user_availability(event_start, event_end, user_busy_slots)`
from src/recommender.py lines 136-151: scan the busy slots and report a
conflict as soon as `event_start < b.end and event_end > b.start`. -/
def check_user_availability (event_start event_end : Int) :
    List BusyInterval → Bool
  | [] => true
  | busy :: rest =>
    if event_start < busy.stop ∧ event_end > busy.start then false
    else check_user_availability event_start event_end rest

/-- One row of the candidate events table consumed by
`find_best_slots_for_group` (columns Title / Start / End / Category /
Description; the location column is never read by the engine). -/
structure EventRow where
  Title : Str
  Start : Int
  End : Int
  Category : Str
  Description : Str
deriving DecidableEq

/-- Line 186: the lowercase searchable text blob
`(category + " " + description + " " + title).lower()`. -/
def event_text (ev : EventRow) : Str :=
  toLowerStr (ev.Category ++ [' '] ++ ev.Description ++ [' '] ++ ev.Title)

/-- Lines 242-246: the ML feature text
`title + " " + category + " " + description`. -/
def event_features (ev : EventRow) : Str :=
  ev.Title ++ [' '] ++ ev.Category ++ [' '] ++ ev.Description

/-- Line 201: a single comma-split preference keyword matches when its
stripped form is non-empty and its lowercase form occurs in the blob. -/
def tagMatchesText (blob pref : Str) : Bool :=
  let clean := stripStr pref
  !clean.isEmpty && containsStr blob (toLowerStr clean)

/-- Lines 197-203: a user likes the event when at least one of their
comma-split preference keywords matches the blob. -/
def user_likes_event (blob u_prefs : Str) : Bool :=
  (splitCommas u_prefs).any (tagMatchesText blob)

/-- Line 202: the stripped keywords of one user that match the blob (the
code adds each such `clean_pref` to the `matched_tags` set). -/
def userMatchedTags (blob u_prefs : Str) : List Str :=
  (splitCommas u_prefs).filterMap (fun pref =>
    if tagMatchesText blob pref then some (stripStr pref) else none)

/-- One surviving scored occurrence before the ML stage: the event row
plus the derived fields stored in lines 220-228. -/
structure ScoredRow where
  event : EventRow
  attendees : List Str
  attendee_count : Nat
  group_prefs_text : Str
  matched_tags : Str
  interest_score : ℚ
  availability_score : ℚ
deriving DecidableEq

/-- Lines 169-175: the members of `selected_users` (order preserved) whose
busy slots leave them free for the event; `user_busy_map` is the Python
dict with `.get(user, [])` folded in as a total function. -/
def attendeesOf (user_busy_map : Str → List BusyInterval)
    (selected_users : List Str) (ev : EventRow) : List Str :=
  selected_users.filter (fun user =>
    check_user_availability ev.Start ev.End (user_busy_map user))

/-- Line 166: `len(selected_users) if selected_users else 1`. -/
def totalGroupSize (selected_users : List Str) : ℚ :=
  if selected_users.isEmpty then 1 else (selected_users.length : ℚ)

/-- Lines 181-228: score one surviving event: count happy attendees,
collect matched tags, and store the interest and availability ratios.
`all_user_prefs` is the Python dict with `.get(attendee, "")` folded in. -/
def scoreEvent (all_user_prefs : Str → Str) (total_group_size : ℚ)
    (ev : EventRow) (attendees : List Str) : ScoredRow :=
  let blob := event_text ev
  let happy_user_count :=
    (attendees.filter (fun a => user_likes_event blob (all_user_prefs a))).length
  let tags :=
    dedupFirst [] ((attendees.map (fun a => userMatchedTags blob (all_user_prefs a))).flatten)
  { event := ev
    attendees := attendees
    attendee_count := attendees.length
    group_prefs_text := joinSep [' '] (attendees.map all_user_prefs)
    matched_tags := if tags.isEmpty then ("General".toList) else joinSep [',', ' '] tags
    interest_score :=
      if 0 < attendees.length then (happy_user_count : ℚ) / (attendees.length : ℚ) else 0
    availability_score :=
      if 0 < total_group_size then (attendees.length : ℚ) / total_group_size else 0 }

/-- Lines 168-230: the `results` list: every event whose attendee count
meets `min_attendees`, scored, in input order. -/
def survivorRows (user_busy_map : Str → List BusyInterval)
    (selected_users : List Str) (all_user_prefs : Str → Str)
    (min_attendees : Nat) (events : List EventRow) : List ScoredRow :=
  events.filterMap (fun ev =>
    let attendees := attendeesOf user_busy_map selected_users ev
    if min_attendees ≤ attendees.length then
      some (scoreEvent all_user_prefs (totalGroupSize selected_users) ev attendees)
    else none)

/-- Lines 248-273: the TF-IDF stage. The sklearn vectorizer and cosine
similarity are floating-point library code outside the repository, so they
enter the embedding as parameters: `fit` models
`TfidfVectorizer(stop_words='english').fit_transform` on the feature texts
of the batch (an `Except` because it can raise, e.g. on an empty
vocabulary), and `simf m text idx` models
`cosine_similarity(tfidf.transform([text]), tfidf_matrix[idx])[0][0]`
against the fitted state `m`. With at least two surviving rows each row
keeps its manual `interest_score` when positive and otherwise receives the
similarity value for its own prefs text and matrix row; with a single row
the score is the manual one when positive, else the neutral 0.5. Any
raised error propagates to the enclosing handler in
`find_best_slots_for_group`.

`mapExcept` below is the sequential effectful map: compute each value in
order and stop at the first raised error, exactly as the Python `for`
loop filling `ml_scores` does. -/
def mapExcept {α β : Type} (f : α → Except Unit β) : List α → Except Unit (List β)
  | [] => Except.ok []
  | a :: l =>
    match f a with
    | Except.error e => Except.error e
    | Except.ok b =>
      match mapExcept f l with
      | Except.error e => Except.error e
      | Except.ok bs => Except.ok (b :: bs)

def mlScores {σ : Type} (fit : List Str → Except Unit σ)
    (simf : σ → Str → Nat → Except Unit ℚ)
    (rows : List ScoredRow) : Except Unit (List ℚ) :=
  if 2 ≤ rows.length then
    match fit (rows.map (fun r => event_features r.event)) with
    | Except.error e => Except.error e
    | Except.ok m =>
      mapExcept (fun p =>
        if 0 < p.2.interest_score then Except.ok p.2.interest_score
        else simf m p.2.group_prefs_text p.1) rows.enum
  else
    match rows with
    | [] => Except.ok []
    | r :: _ =>
      Except.ok (rows.map (fun _ =>
        if 0 < r.interest_score then r.interest_score else 1/2))

/-- Lines 248-278: the final interest column: the ML stage result, or on
any raised error the `except` branch that falls back to the manual
interest score for the whole batch. -/
def finalsOf {σ : Type} (fit : List Str → Except Unit σ)
    (simf : σ → Str → Nat → Except Unit ℚ)
    (rows : List ScoredRow) : List ℚ :=
  match mlScores fit simf rows with
  | Except.ok s => s
  | Except.error _ => rows.map (fun r => r.interest_score)

/-- A fully scored occurrence after the ML stage and the line-284 addition
of the composite `sort_score`. -/
structure FinalRow where
  base : ScoredRow
  final_interest_score : ℚ
  sort_score : ℚ
deriving DecidableEq

/-- Line 284: pair each surviving row with its final interest score and
set `sort_score = availability_score + final_interest_score`. -/
def attachScores (rows : List ScoredRow) (finals : List ℚ) : List FinalRow :=
  (rows.zip finals).map (fun p =>
    { base := p.1
      final_interest_score := p.2
      sort_score := p.1.availability_score + p.2 })

/-- The ranked input of the sort: surviving rows with final scores. -/
def rankedRows {σ : Type} (fit : List Str → Except Unit σ)
    (simf : σ → Str → Nat → Except Unit ℚ)
    (rows : List ScoredRow) : List FinalRow :=
  attachScores rows (finalsOf fit simf rows)

/-- Insert into a descending-sorted list, before the first element whose
sort_score is not larger. -/
def insertDesc (x : FinalRow) : List FinalRow → List FinalRow
  | [] => [x]
  | y :: ys =>
    if y.sort_score ≤ x.sort_score then x :: y :: ys
    else y :: insertDesc x ys

/-- Line 287: `sort_values(by=['sort_score'], ascending=[False])`, a
single-key descending sort. The program's sort is numpy's default
introsort, which is NOT stable for larger batches, so the relative order
of equal keys is an unspecified implementation artifact; this embedding
is one concrete comparison sort on the same single key. Only properties
that hold of any single-key descending sort are proved of it — the output
is a permutation of the input in non-increasing key order, and the
arrangement depends only on the sort_score column (it commutes with any
row relabeling that preserves sort_score) — never tie stability. On
batches inside numpy's small-array insertion-sort leg (such as the
two-row counterexample below) the embedding coincides with the program's
sort exactly. -/
def sortDesc : List FinalRow → List FinalRow
  | [] => []
  | x :: xs => insertDesc x (sortDesc xs)

/-- Function `find_best_slots_for_group(events_df, user_busy_map, selected_users,
all_user_prefs, min_attendees)` from src/recommender.py lines 155-289:
empty input and empty survivor guards, scoring, ML stage with error
fallback, composite score and descending sort. The function is total: a
raised similarity error is consumed by `finalsOf`, never by the caller. -/
def find_best_slots_for_group {σ : Type} (fit : List Str → Except Unit σ)
    (simf : σ → Str → Nat → Except Unit ℚ) (events_df : List EventRow)
    (user_busy_map : Str → List BusyInterval) (selected_users : List Str)
    (all_user_prefs : Str → Str) (min_attendees : Nat) : List FinalRow :=
  if events_df.isEmpty then []
  else if (survivorRows user_busy_map selected_users all_user_prefs
      min_attendees events_df).isEmpty then []
  else
    sortDesc (rankedRows fit simf (survivorRows user_busy_map selected_users
      all_user_prefs min_attendees events_df))

/-- Timestamp of minute `minute` on day `day`: days are numbered so that
`day % 7` is the Python `date.weekday()` (day 0 is a Monday), and a day
has 1440 minutes. -/
def dt (day minute : Nat) : Int := ((day * 1440 + minute : Nat) : Int)

/-- One row of the weekly template source (`weekday, event_name,
start_time, end_time, category, description`). The per-row time cells are
embedded as parse results: `some t` is a successfully parsed time-of-day
`t` in minutes, `none` a cell whose parse raises (missing or unparseable
value). Category alias resolution (`category`/`kategorie`, defaulting to
"General") happens at column level before this point and is carried here
as the resolved text. -/
structure TemplateRow where
  weekday : Nat
  event_name : Str
  start_time : Option Nat
  end_time : Option Nat
  category : Str
  description : Str
deriving DecidableEq

/-- Lines 69-115 of src/recommender.py, the per-row body of the weekly
generator for one concrete day. A start-time parse failure raises out of
the row body into the line-113 handler, which skips the row (`none`). An
end-time parse failure is caught by the inner line-80 handler and
defaults the end time to `time(0,0)` (minute 0), so the row is kept. The
end timestamp moves to the next calendar day when
`e_time <= s_time and e_time != time(0,0)` or when `e_time == time(0,0)`,
otherwise it stays on the same day. -/
def processRow (current_date : Nat) (row : TemplateRow) : Option EventRow :=
  match row.start_time with
  | none => none
  | some s_time =>
    let e_time :=
      match row.end_time with
      | some t => t
      | none => 0
    let start_dt := dt current_date s_time
    let end_dt :=
      if e_time ≤ s_time ∧ e_time ≠ 0 then dt (current_date + 1) e_time
      else if e_time = 0 then dt (current_date + 1) e_time
      else dt current_date e_time
    some { Title := row.event_name
           Start := start_dt
           End := end_dt
           Category := row.category
           Description := row.description }

/-- Lines 57-117: the weekly branch of `load_local_events`: for each of
the 30 days starting at `today`, take the template rows whose weekday
matches that day and generate one concrete occurrence per row that
parses; malformed rows are skipped and never abort the batch (the
function is total). -/
def load_local_events (today : Nat) (rows : List TemplateRow) : List EventRow :=
  (List.range 30).flatMap (fun i =>
    (rows.filter (fun r => r.weekday == (today + i) % 7)).filterMap
      (processRow (today + i)))

/-- Concrete similarity-fit stub used for instantiations: fitting always
succeeds, carrying no state. -/
def fitW : List Str → Except Unit Unit := fun _ => Except.ok ()

/-- Concrete similarity stub used for instantiations: every similarity
query returns 0. -/
def simW : Unit → Str → Nat → Except Unit ℚ := fun _ _ _ => Except.ok 0

/-- Concrete busy map: nobody has busy intervals. -/
def busyW : Str → List BusyInterval := fun _ => []

/-- Concrete one-person group. -/
def selW : List Str := ["alice".toList]

/-- Concrete tag map: everyone has the single tag "zz". -/
def prefsW : Str → Str := fun _ => "zz".toList

/-- Concrete single candidate event titled "zz". -/
def evW : EventRow :=
  { Title := "zz".toList, Start := 0, End := 10, Category := [], Description := [] }

/-- The scored row the engine computes for `evW` under the fixtures. -/
def rowW : ScoredRow :=
  { event := evW
    attendees := ["alice".toList]
    attendee_count := 1
    group_prefs_text := "zz".toList
    matched_tags := "zz".toList
    interest_score := 1
    availability_score := 1 }

/-- The final ranked row for `evW` under the fixtures. -/
def outW : FinalRow := { base := rowW, final_interest_score := 1, sort_score := 2 }

/-- Concrete busy map for the two-event fixture: bob is busy 0-10. -/
def busyB : Str → List BusyInterval :=
  fun u => if u = "bob".toList then [⟨0, 10⟩] else []

/-- Concrete two-person group alice, bob. -/
def selB : List Str := ["alice".toList, "bob".toList]

/-- Concrete tag map: alice has tag "zz", bob has tag "qq". -/
def prefsB : Str → Str :=
  fun u => if u = "alice".toList then ("zz".toList) else ("qq".toList)

/-- First candidate of the two-event fixture, clashing with bob. -/
def evB1 : EventRow :=
  { Title := "zz club".toList, Start := 0, End := 10, Category := [], Description := [] }

/-- Second candidate of the two-event fixture, free for both. -/
def evB2 : EventRow :=
  { Title := "zz hall".toList, Start := 20, End := 30, Category := [], Description := [] }

/-- Scored row for `evB1`: only alice attends and likes it. -/
def rowB1 : ScoredRow :=
  { event := evB1
    attendees := ["alice".toList]
    attendee_count := 1
    group_prefs_text := "zz".toList
    matched_tags := "zz".toList
    interest_score := 1
    availability_score := 1/2 }

/-- Scored row for `evB2`: both attend, only alice likes it. -/
def rowB2 : ScoredRow :=
  { event := evB2
    attendees := ["alice".toList, "bob".toList]
    attendee_count := 2
    group_prefs_text := "zz qq".toList
    matched_tags := "zz".toList
    interest_score := 1/2
    availability_score := 1 }

/-- Final ranked row for `evB1`. -/
def outB1 : FinalRow := { base := rowB1, final_interest_score := 1, sort_score := 3/2 }

/-- Final ranked row for `evB2`. -/
def outB2 : FinalRow := { base := rowB2, final_interest_score := 1/2, sort_score := 3/2 }

/-- A concrete row relabeling that changes `attendee_count` but preserves
`sort_score`, used to instantiate the key-only-sort property. -/
def gW : FinalRow → FinalRow := fun r =>
  { r with base := { r.base with attendee_count := r.base.attendee_count + 5 } }

lemma mem_insertDesc {x z : FinalRow} {l : List FinalRow} :
    z ∈ insertDesc x l ↔ z = x ∨ z ∈ l := by
  induction l with
  | nil => simp [insertDesc]
  | cons y ys ih =>
    by_cases h : y.sort_score ≤ x.sort_score
    · simp [insertDesc, if_pos h]
    · simp only [insertDesc, if_neg h, List.mem_cons, ih]
      tauto

lemma mem_sortDesc {z : FinalRow} {l : List FinalRow} :
    z ∈ sortDesc l ↔ z ∈ l := by
  induction l with
  | nil => simp [sortDesc]
  | cons x xs ih => simp [sortDesc, mem_insertDesc, ih]

lemma insertDesc_sorted {x : FinalRow} {l : List FinalRow}
    (h : l.Pairwise (fun a b => b.sort_score ≤ a.sort_score)) :
    (insertDesc x l).Pairwise (fun a b => b.sort_score ≤ a.sort_score) := by
  induction l with
  | nil => simp [insertDesc]
  | cons y ys ih =>
    rcases List.pairwise_cons.1 h with ⟨hy, hys⟩
    by_cases hle : y.sort_score ≤ x.sort_score
    · simp only [insertDesc, if_pos hle]
      refine List.pairwise_cons.2 ⟨?_, h⟩
      intro z hz
      rcases List.mem_cons.1 hz with rfl | hz
      · exact hle
      · exact le_trans (hy z hz) hle
    · simp only [insertDesc, if_neg hle]
      refine List.pairwise_cons.2 ⟨?_, ih hys⟩
      intro z hz
      rcases mem_insertDesc.1 hz with rfl | hz
      · exact le_of_not_le hle
      · exact hy z hz

lemma sortDesc_sorted (l : List FinalRow) :
    (sortDesc l).Pairwise (fun a b => b.sort_score ≤ a.sort_score) := by
  induction l with
  | nil => simp [sortDesc]
  | cons x xs ih => exact insertDesc_sorted ih

lemma insertDesc_perm (x : FinalRow) (l : List FinalRow) :
    List.Perm (insertDesc x l) (x :: l) := by
  induction l with
  | nil => exact List.Perm.refl _
  | cons y ys ih =>
    by_cases h : y.sort_score ≤ x.sort_score
    · rw [insertDesc, if_pos h]
    · rw [insertDesc, if_neg h]
      exact (List.Perm.cons y ih).trans (List.Perm.swap x y ys)

lemma sortDesc_perm (l : List FinalRow) : List.Perm (sortDesc l) l := by
  induction l with
  | nil => exact List.Perm.refl _
  | cons x xs ih =>
    exact (insertDesc_perm x (sortDesc xs)).trans (List.Perm.cons x ih)

lemma insertDesc_map_comm (g : FinalRow → FinalRow)
    (hg : ∀ x, (g x).sort_score = x.sort_score) (x : FinalRow) :
    ∀ l : List FinalRow, insertDesc (g x) (l.map g) = (insertDesc x l).map g := by
  intro l
  induction l with
  | nil => rfl
  | cons y ys ih =>
    simp only [List.map_cons, insertDesc, hg]
    by_cases h : y.sort_score ≤ x.sort_score
    · simp [if_pos h]
    · simp [if_neg h, ih]

lemma sortDesc_map_comm (g : FinalRow → FinalRow)
    (hg : ∀ x, (g x).sort_score = x.sort_score) :
    ∀ l : List FinalRow, sortDesc (l.map g) = (sortDesc l).map g := by
  intro l
  induction l with
  | nil => rfl
  | cons x xs ih =>
    simp only [List.map_cons, sortDesc]
    rw [ih, insertDesc_map_comm g hg]

lemma mem_survivorRows {user_busy_map : Str → List BusyInterval}
    {selected_users : List Str} {all_user_prefs : Str → Str}
    {min_attendees : Nat} {events : List EventRow} {row : ScoredRow} :
    row ∈ survivorRows user_busy_map selected_users all_user_prefs
        min_attendees events ↔
      ∃ ev ∈ events,
        min_attendees ≤ (attendeesOf user_busy_map selected_users ev).length ∧
        row = scoreEvent all_user_prefs (totalGroupSize selected_users) ev
          (attendeesOf user_busy_map selected_users ev) := by
  unfold survivorRows
  rw [List.mem_filterMap]
  constructor
  · rintro ⟨ev, hev, hsome⟩
    by_cases h : min_attendees ≤ (attendeesOf user_busy_map selected_users ev).length
    · rw [if_pos h] at hsome
      exact ⟨ev, hev, h, (Option.some.injEq _ _ ▸ hsome).symm⟩
    · rw [if_neg h] at hsome
      exact absurd hsome (Option.noConfusion)
  · rintro ⟨ev, hev, h, rfl⟩
    exact ⟨ev, hev, by rw [if_pos h]⟩

lemma mapExcept_ok_forall₂ {α β : Type} (f : α → Except Unit β) :
    ∀ (l : List α) (s : List β), mapExcept f l = Except.ok s →
      List.Forall₂ (fun a b => f a = Except.ok b) l s := by
  intro l
  induction l with
  | nil =>
    intro s hs
    unfold mapExcept at hs
    cases hs
    exact List.Forall₂.nil
  | cons a t ih =>
    intro s hs
    unfold mapExcept at hs
    cases hfa : f a with
    | error e => rw [hfa] at hs; exact absurd hs (by simp)
    | ok b =>
      rw [hfa] at hs
      cases hml : mapExcept f t with
      | error e => rw [hml] at hs; exact absurd hs (by simp)
      | ok bs =>
        rw [hml] at hs
        simp only [Except.ok.injEq] at hs
        subst hs
        exact List.Forall₂.cons hfa (ih bs hml)

lemma enum_snd_mem {α : Type} :
    ∀ (n : Nat) (l : List α) (p : Nat × α), p ∈ l.enumFrom n → p.2 ∈ l := by
  intro n l
  induction l generalizing n with
  | nil => intro p hp; simp [List.enumFrom] at hp
  | cons a t ih =>
    intro p hp
    simp only [List.enumFrom, List.mem_cons] at hp
    rcases hp with rfl | hp
    · exact List.mem_cons_self a t
    · exact List.mem_cons_of_mem a (ih (n + 1) p hp)

lemma forall₂_self_map {α β : Type} (f : α → β) (l : List α) :
    List.Forall₂ (fun a b => b = f a) l (l.map f) := by
  induction l with
  | nil => exact List.Forall₂.nil
  | cons a t ih => exact List.Forall₂.cons rfl ih

/-- C1: `check_user_availability` returns false iff some busy interval `b`
satisfies `start < b.end` and `end > b.start`; consequently an empty busy
list yields free, and an occurrence merely touching a busy interval at a
boundary (occurrence end equals busy start, or occurrence start equals
busy end) is reported free. -/
theorem C1_overlap_semantics (event_start event_end : Int)
    (busy_slots : List BusyInterval) :
    (check_user_availability event_start event_end busy_slots = false ↔
      ∃ b ∈ busy_slots, event_start < b.stop ∧ event_end > b.start) ∧
    check_user_availability event_start event_end [] = true ∧
    (∀ b : BusyInterval, b.start = event_end ∨ b.stop = event_start →
      check_user_availability event_start event_end [b] = true) := by
  refine ⟨?_, rfl, ?_⟩
  · induction busy_slots with
    | nil => simp [check_user_availability]
    | cons b rest ih =>
      by_cases h : event_start < b.stop ∧ event_end > b.start
      · simp only [check_user_availability, if_pos h]
        exact ⟨fun _ => ⟨b, List.mem_cons_self b rest, h⟩, fun _ => trivial⟩
      · simp only [check_user_availability, if_neg h, ih, List.mem_cons]
        constructor
        · rintro ⟨x, hx, hov⟩
          exact ⟨x, Or.inr hx, hov⟩
        · rintro ⟨x, hx | hx, hov⟩
          · exact absurd (hx ▸ hov) h
          · exact ⟨x, hx, hov⟩
  · intro b hb
    have hnc : ¬(event_start < b.stop ∧ event_end > b.start) := by
      rintro ⟨h1, h2⟩
      rcases hb with h | h <;> omega
    simp only [check_user_availability, if_neg hnc]

/-- Instantiation of `C1_overlap_semantics` at a concrete touching pair:
busy interval 9-12 and occurrence 5-9 (occurrence ends exactly when the
busy interval starts) is reported free. -/
theorem C1_overlap_semantics_app :
    ((9 : Int) = 9 ∨ (12 : Int) = 5) ∧
    check_user_availability 5 9 [⟨9, 12⟩] = true :=
  ⟨Or.inl rfl, (C1_overlap_semantics 5 9 [⟨9, 12⟩]).2.2 ⟨9, 12⟩ (Or.inl rfl)⟩

lemma evalW : find_best_slots_for_group fitW simW [evW] busyW selW prefsW 1 = [outW] := by
  simp +decide [find_best_slots_for_group, survivorRows, attendeesOf, check_user_availability,
    totalGroupSize, scoreEvent, event_text, event_features, user_likes_event, userMatchedTags,
    tagMatchesText, splitCommas, stripStr, toLowerStr, isSpaceChar, containsStr, startsWithStr,
    joinSep, dedupFirst, mlScores, mapExcept, finalsOf, rankedRows, attachScores, sortDesc,
    insertDesc, fitW, simW, busyW, selW, prefsW, evW, rowW, outW, Char.toLower,
    List.dropWhile_cons, List.dropWhile_nil]
  norm_num

lemma evalB : find_best_slots_for_group fitW simW [evB1, evB2] busyB selB prefsB 1 =
    [outB1, outB2] := by
  simp +decide [find_best_slots_for_group, survivorRows, attendeesOf, check_user_availability,
    totalGroupSize, scoreEvent, event_text, event_features, user_likes_event, userMatchedTags,
    tagMatchesText, splitCommas, stripStr, toLowerStr, isSpaceChar, containsStr, startsWithStr,
    joinSep, dedupFirst, mlScores, mapExcept, finalsOf, rankedRows, attachScores, sortDesc,
    insertDesc, fitW, simW, busyB, selB, prefsB, evB1, evB2, rowB1, rowB2, outB1, outB2,
    Char.toLower, List.dropWhile_cons, List.dropWhile_nil]
  norm_num

lemma mem_find_best {σ : Type} {fit : List Str → Except Unit σ}
    {simf : σ → Str → Nat → Except Unit ℚ} {events_df : List EventRow}
    {user_busy_map : Str → List BusyInterval} {selected_users : List Str}
    {all_user_prefs : Str → Str} {min_attendees : Nat} {r : FinalRow}
    (hr : r ∈ find_best_slots_for_group fit simf events_df user_busy_map
      selected_users all_user_prefs min_attendees) :
    (r.base, r.final_interest_score) ∈
      (survivorRows user_busy_map selected_users all_user_prefs min_attendees
          events_df).zip
        (finalsOf fit simf (survivorRows user_busy_map selected_users
          all_user_prefs min_attendees events_df)) ∧
    r.sort_score = r.base.availability_score + r.final_interest_score := by
  unfold find_best_slots_for_group at hr
  split at hr
  · simp at hr
  · split at hr
    · simp at hr
    · have hm := mem_sortDesc.1 hr
      unfold rankedRows attachScores at hm
      rcases List.mem_map.1 hm with ⟨p, hp, rfl⟩
      exact ⟨hp, rfl⟩

/-- C2: every returned occurrence's sort_score is the sum of its
availability_score and its final_interest_score, and the returned list is
ordered with sort_score non-increasing from first to last. -/
theorem C2_sort_score_and_order {σ : Type} (fit : List Str → Except Unit σ)
    (simf : σ → Str → Nat → Except Unit ℚ) (events_df : List EventRow)
    (user_busy_map : Str → List BusyInterval) (selected_users : List Str)
    (all_user_prefs : Str → Str) (min_attendees : Nat) :
    (∀ r ∈ find_best_slots_for_group fit simf events_df user_busy_map
        selected_users all_user_prefs min_attendees,
      r.sort_score = r.base.availability_score + r.final_interest_score) ∧
    (find_best_slots_for_group fit simf events_df user_busy_map
        selected_users all_user_prefs min_attendees).Pairwise
      (fun a b => b.sort_score ≤ a.sort_score) := by
  constructor
  · intro r hr
    exact (mem_find_best hr).2
  · unfold find_best_slots_for_group
    split
    · exact List.Pairwise.nil
    · split
      · exact List.Pairwise.nil
      · exact sortDesc_sorted _

/-- Instantiation of `C2_sort_score_and_order` at the one-event fixture. -/
theorem C2_sort_score_and_order_app :
    outW ∈ find_best_slots_for_group fitW simW [evW] busyW selW prefsW 1 ∧
    outW.sort_score = outW.base.availability_score + outW.final_interest_score := by
  have hm : outW ∈ find_best_slots_for_group fitW simW [evW] busyW selW prefsW 1 := by
    rw [evalW]
    exact List.mem_singleton.2 rfl
  exact ⟨hm, (C2_sort_score_and_order fitW simW [evW] busyW selW prefsW 1).1 outW hm⟩

/-- C6: every returned occurrence's attendee list is exactly the
order-preserving filter of selected_people by the availability check on
that person's busy intervals (the busy map carrying `[]` for absent
people); attendee_count is its length and never exceeds the size of the
selected group. -/
theorem C6_attendees_resolution {σ : Type} (fit : List Str → Except Unit σ)
    (simf : σ → Str → Nat → Except Unit ℚ) (events_df : List EventRow)
    (user_busy_map : Str → List BusyInterval) (selected_users : List Str)
    (all_user_prefs : Str → Str) (min_attendees : Nat) :
    ∀ r ∈ find_best_slots_for_group fit simf events_df user_busy_map
        selected_users all_user_prefs min_attendees,
      r.base.attendees = attendeesOf user_busy_map selected_users r.base.event ∧
      r.base.attendee_count = r.base.attendees.length ∧
      r.base.attendee_count ≤ selected_users.length := by
  intro r hr
  have hb := List.of_mem_zip (mem_find_best hr).1
  rcases mem_survivorRows.1 hb.1 with ⟨ev, _, _, heq⟩
  refine ⟨?_, ?_, ?_⟩
  · rw [heq]
    rfl
  · rw [heq]
    rfl
  · rw [heq]
    exact List.length_filter_le _ _

/-- Instantiation of `C6_attendees_resolution` at the one-event fixture. -/
theorem C6_attendees_resolution_app :
    outW ∈ find_best_slots_for_group fitW simW [evW] busyW selW prefsW 1 ∧
    outW.base.attendees = attendeesOf busyW selW outW.base.event ∧
    outW.base.attendee_count ≤ selW.length := by
  have hm : outW ∈ find_best_slots_for_group fitW simW [evW] busyW selW prefsW 1 := by
    rw [evalW]
    exact List.mem_singleton.2 rfl
  have h := C6_attendees_resolution fitW simW [evW] busyW selW prefsW 1 outW hm
  exact ⟨hm, h.1, h.2.2⟩

lemma interest_formula (all_user_prefs : Str → Str) (tot : ℚ) (ev : EventRow)
    (att : List Str) :
    (scoreEvent all_user_prefs tot ev att).interest_score =
      ((att.filter (fun a =>
          user_likes_event (event_text ev) (all_user_prefs a))).length : ℚ) /
        ((max 1 att.length : Nat) : ℚ) := by
  cases att with
  | nil => norm_num [scoreEvent]
  | cons a t =>
    have hpos : 0 < (a :: t).length := Nat.succ_pos t.length
    have hmax : max 1 (a :: t).length = (a :: t).length :=
      Nat.max_eq_right (Nat.succ_le_succ (Nat.zero_le _))
    simp only [scoreEvent, hmax, if_pos hpos]

/-- C3: every returned occurrence's interest_score is the number of happy
attendees divided by max(1, attendee count), where an attendee is happy
iff one of their comma-split, stripped, non-empty tags occurs lowercased
in the lowercase blob of the occurrence's category, description and
title; with no attendees the interest_score is 0. -/
theorem C3_interest_score {σ : Type} (fit : List Str → Except Unit σ)
    (simf : σ → Str → Nat → Except Unit ℚ) (events_df : List EventRow)
    (user_busy_map : Str → List BusyInterval) (selected_users : List Str)
    (all_user_prefs : Str → Str) (min_attendees : Nat) :
    ∀ r ∈ find_best_slots_for_group fit simf events_df user_busy_map
        selected_users all_user_prefs min_attendees,
      r.base.interest_score =
        ((r.base.attendees.filter (fun a =>
            user_likes_event (event_text r.base.event) (all_user_prefs a))).length : ℚ) /
          ((max 1 r.base.attendees.length : Nat) : ℚ) ∧
      (r.base.attendees = [] → r.base.interest_score = 0) := by
  intro r hr
  have hb := List.of_mem_zip (mem_find_best hr).1
  rcases mem_survivorRows.1 hb.1 with ⟨ev, _, _, heq⟩
  constructor
  · rw [heq]
    exact interest_formula all_user_prefs (totalGroupSize selected_users) ev
      (attendeesOf user_busy_map selected_users ev)
  · intro hnil
    rw [heq] at hnil ⊢
    have hnil' : attendeesOf user_busy_map selected_users ev = [] := hnil
    simp [scoreEvent, hnil']

/-- Instantiation of `C3_interest_score` at the one-event fixture. -/
theorem C3_interest_score_app :
    outW ∈ find_best_slots_for_group fitW simW [evW] busyW selW prefsW 1 ∧
    outW.base.interest_score =
      ((outW.base.attendees.filter (fun a =>
          user_likes_event (event_text outW.base.event) (prefsW a))).length : ℚ) /
        ((max 1 outW.base.attendees.length : Nat) : ℚ) := by
  have hm : outW ∈ find_best_slots_for_group fitW simW [evW] busyW selW prefsW 1 := by
    rw [evalW]
    exact List.mem_singleton.2 rfl
  exact ⟨hm, (C3_interest_score fitW simW [evW] busyW selW prefsW 1 outW hm).1⟩

lemma forall₂_mem_right {α β : Type} {R : α → β → Prop} :
    ∀ {l : List α} {s : List β}, List.Forall₂ R l s → ∀ b ∈ s, ∃ a ∈ l, R a b := by
  intro l s h
  induction h with
  | nil =>
    intro b hb
    simp at hb
  | cons hab _ ih =>
    intro b hb
    rcases List.mem_cons.1 hb with rfl | hb
    · exact ⟨_, List.mem_cons_self _ _, hab⟩
    · rcases ih b hb with ⟨a, ha, hr⟩
      exact ⟨a, List.mem_cons_of_mem _ ha, hr⟩

lemma avail_bounds (user_busy_map : Str → List BusyInterval)
    (selected_users : List Str) (all_user_prefs : Str → Str) (ev : EventRow) :
    0 ≤ (scoreEvent all_user_prefs (totalGroupSize selected_users) ev
        (attendeesOf user_busy_map selected_users ev)).availability_score ∧
    (scoreEvent all_user_prefs (totalGroupSize selected_users) ev
        (attendeesOf user_busy_map selected_users ev)).availability_score ≤ 1 := by
  cases selected_users with
  | nil => norm_num [scoreEvent, attendeesOf, totalGroupSize]
  | cons u us =>
    have hpos : (0 : ℚ) < (((u :: us).length : Nat) : ℚ) := by
      exact_mod_cast Nat.succ_pos us.length
    have htot : totalGroupSize (u :: us) = (((u :: us).length : Nat) : ℚ) := by
      simp [totalGroupSize]
    simp only [scoreEvent, htot, if_pos hpos]
    constructor
    · positivity
    · rw [div_le_one hpos]
      exact_mod_cast List.length_filter_le _ _

lemma interest_bounds (all_user_prefs : Str → Str) (tot : ℚ) (ev : EventRow)
    (att : List Str) :
    0 ≤ (scoreEvent all_user_prefs tot ev att).interest_score ∧
    (scoreEvent all_user_prefs tot ev att).interest_score ≤ 1 := by
  cases att with
  | nil => norm_num [scoreEvent]
  | cons a t =>
    have hpos : 0 < (a :: t).length := Nat.succ_pos t.length
    have hposq : (0 : ℚ) < (((a :: t).length : Nat) : ℚ) := by exact_mod_cast hpos
    simp only [scoreEvent, if_pos hpos]
    constructor
    · positivity
    · rw [div_le_one hposq]
      exact_mod_cast List.length_filter_le _ _

lemma finalsOf_mem_bound {σ : Type} (fit : List Str → Except Unit σ)
    (simf : σ → Str → Nat → Except Unit ℚ) (rows : List ScoredRow)
    (hsim : ∀ (m : σ) (t : Str) (i : Nat) (v : ℚ),
      simf m t i = Except.ok v → 0 ≤ v ∧ v ≤ 1)
    (hrows : ∀ row ∈ rows, 0 ≤ row.interest_score ∧ row.interest_score ≤ 1) :
    ∀ b ∈ finalsOf fit simf rows, 0 ≤ b ∧ b ≤ 1 := by
  intro b hb
  unfold finalsOf at hb
  cases hml : mlScores fit simf rows with
  | error e =>
    rw [hml] at hb
    rcases List.mem_map.1 hb with ⟨row, hrow, rfl⟩
    exact hrows row hrow
  | ok s =>
    rw [hml] at hb
    unfold mlScores at hml
    split at hml
    · cases hf : fit (rows.map fun r => event_features r.event) with
      | error e =>
        rw [hf] at hml
        exact absurd hml (by simp)
      | ok m =>
        rw [hf] at hml
        have hfa := mapExcept_ok_forall₂ _ _ _ hml
        rcases forall₂_mem_right hfa b hb with ⟨p, hp, hfp⟩
        by_cases hpos : 0 < p.2.interest_score
        · rw [if_pos hpos] at hfp
          have hbv : p.2.interest_score = b := by injection hfp
          rw [← hbv]
          exact hrows p.2 (enum_snd_mem 0 rows p hp)
        · rw [if_neg hpos] at hfp
          exact hsim m p.2.group_prefs_text p.1 b hfp
    · cases rows with
      | nil =>
        cases hml
        simp at hb
      | cons r rest =>
        simp only [Except.ok.injEq] at hml
        subst hml
        rcases List.mem_map.1 hb with ⟨_, _, rfl⟩
        by_cases hpos : 0 < r.interest_score
        · rw [if_pos hpos]
          exact hrows r (List.mem_cons_self _ _)
        · rw [if_neg hpos]
          norm_num

/-- C9: every returned occurrence's availability_score, interest_score
and final_interest_score lie in the closed interval from 0 to 1, assuming
(as holds for cosine similarity of non-negative TF-IDF vectors) that every
similarity value the similarity engine returns lies in that interval. -/
theorem C9_score_ranges {σ : Type} (fit : List Str → Except Unit σ)
    (simf : σ → Str → Nat → Except Unit ℚ) (events_df : List EventRow)
    (user_busy_map : Str → List BusyInterval) (selected_users : List Str)
    (all_user_prefs : Str → Str) (min_attendees : Nat)
    (hsim : ∀ (m : σ) (t : Str) (i : Nat) (v : ℚ),
      simf m t i = Except.ok v → 0 ≤ v ∧ v ≤ 1) :
    ∀ r ∈ find_best_slots_for_group fit simf events_df user_busy_map
        selected_users all_user_prefs min_attendees,
      (0 ≤ r.base.availability_score ∧ r.base.availability_score ≤ 1) ∧
      (0 ≤ r.base.interest_score ∧ r.base.interest_score ≤ 1) ∧
      (0 ≤ r.final_interest_score ∧ r.final_interest_score ≤ 1) := by
  intro r hr
  have hz := (mem_find_best hr).1
  have hmem := List.of_mem_zip hz
  have hrows : ∀ row ∈ survivorRows user_busy_map selected_users all_user_prefs
      min_attendees events_df, 0 ≤ row.interest_score ∧ row.interest_score ≤ 1 := by
    intro row hrow
    rcases mem_survivorRows.1 hrow with ⟨ev, _, _, heq⟩
    rw [heq]
    exact interest_bounds all_user_prefs (totalGroupSize selected_users) ev _
  rcases mem_survivorRows.1 hmem.1 with ⟨ev, _, _, heq⟩
  refine ⟨?_, ?_, ?_⟩
  · rw [heq]
    exact avail_bounds user_busy_map selected_users all_user_prefs ev
  · rw [heq]
    exact interest_bounds all_user_prefs (totalGroupSize selected_users) ev _
  · exact finalsOf_mem_bound fit simf _ hsim hrows r.final_interest_score hmem.2

/-- Instantiation of `C9_score_ranges` with the concrete similarity stub
(whose values all lie in the unit interval) at the one-event fixture. -/
theorem C9_score_ranges_app :
    (∀ (m : Unit) (t : Str) (i : Nat) (v : ℚ),
      simW m t i = Except.ok v → 0 ≤ v ∧ v ≤ 1) ∧
    (0 ≤ outW.final_interest_score ∧ outW.final_interest_score ≤ 1) := by
  have hsim : ∀ (m : Unit) (t : Str) (i : Nat) (v : ℚ),
      simW m t i = Except.ok v → 0 ≤ v ∧ v ≤ 1 := by
    intro m t i v h
    have hv : (0 : ℚ) = v := by injection h
    rw [← hv]
    norm_num
  have hm : outW ∈ find_best_slots_for_group fitW simW [evW] busyW selW prefsW 1 := by
    rw [evalW]
    exact List.mem_singleton.2 rfl
  exact ⟨hsim,
    (C9_score_ranges fitW simW [evW] busyW selW prefsW 1 hsim outW hm).2.2⟩

lemma finalsOf_pointwise {σ : Type} (fit : List Str → Except Unit σ)
    (simf : σ → Str → Nat → Except Unit ℚ) (rows : List ScoredRow) :
    List.Forall₂ (fun (row : ScoredRow) (b : ℚ) =>
      0 < row.interest_score → b = row.interest_score) rows (finalsOf fit simf rows) := by
  unfold finalsOf
  cases hml : mlScores fit simf rows with
  | error e =>
    show List.Forall₂ (fun (row : ScoredRow) (b : ℚ) =>
      0 < row.interest_score → b = row.interest_score) rows
      (rows.map (fun r => r.interest_score))
    refine List.Forall₂.imp ?_ (forall₂_self_map (fun r => r.interest_score) rows)
    intro a b h _
    exact h
  | ok s =>
    show List.Forall₂ (fun (row : ScoredRow) (b : ℚ) =>
      0 < row.interest_score → b = row.interest_score) rows s
    unfold mlScores at hml
    split at hml
    · cases hf : fit (rows.map fun r => event_features r.event) with
      | error e =>
        rw [hf] at hml
        exact absurd hml (by simp)
      | ok m =>
        rw [hf] at hml
        have hfa := mapExcept_ok_forall₂ _ _ _ hml
        have h2 : rows = rows.enum.map Prod.snd := (List.enum_map_snd rows).symm
        rw [h2]
        rw [List.forall₂_map_left_iff]
        refine hfa.imp (fun p b hpb hpos => ?_)
        rw [if_pos hpos] at hpb
        have : p.2.interest_score = b := by injection hpb
        exact this.symm
    · cases rows with
      | nil =>
        cases hml
        exact List.Forall₂.nil
      | cons r rest =>
        rename_i hlt
        have hrest : rest = [] := by
          cases rest with
          | nil => rfl
          | cons x xs => exact absurd (by simp only [List.length_cons]; omega) hlt
        subst hrest
        cases hml
        refine List.Forall₂.cons ?_ List.Forall₂.nil
        intro hpos
        rw [if_pos hpos]

/-- C4: the final interest score of every returned occurrence follows the
dispatch of lines 248-278: a positive manual interest_score is kept
as final_interest_score; with a single surviving occurrence a zero
interest_score receives the neutral constant 1/2; with at least two
surviving occurrences and a successful similarity run, each
zero-interest occurrence receives exactly the similarity value returned
for its own prefs text and matrix index; and when the similarity stage
raises, every occurrence falls back to its interest_score — the function
is total, so no exception ever reaches the caller. -/
theorem C4_final_interest_dispatch {σ : Type} (fit : List Str → Except Unit σ)
    (simf : σ → Str → Nat → Except Unit ℚ) (events_df : List EventRow)
    (user_busy_map : Str → List BusyInterval) (selected_users : List Str)
    (all_user_prefs : Str → Str) (min_attendees : Nat) :
    (∀ r ∈ find_best_slots_for_group fit simf events_df user_busy_map
        selected_users all_user_prefs min_attendees,
      0 < r.base.interest_score → r.final_interest_score = r.base.interest_score) ∧
    (∀ e, mlScores fit simf (survivorRows user_busy_map selected_users
        all_user_prefs min_attendees events_df) = Except.error e →
      ∀ r ∈ find_best_slots_for_group fit simf events_df user_busy_map
          selected_users all_user_prefs min_attendees,
        r.final_interest_score = r.base.interest_score) ∧
    ((survivorRows user_busy_map selected_users all_user_prefs min_attendees
        events_df).length = 1 →
      ∀ r ∈ find_best_slots_for_group fit simf events_df user_busy_map
          selected_users all_user_prefs min_attendees,
        r.base.interest_score = 0 → r.final_interest_score = 1/2) ∧
    (2 ≤ (survivorRows user_busy_map selected_users all_user_prefs min_attendees
        events_df).length →
      ∀ s, mlScores fit simf (survivorRows user_busy_map selected_users
          all_user_prefs min_attendees events_df) = Except.ok s →
      ∀ m, fit ((survivorRows user_busy_map selected_users all_user_prefs
          min_attendees events_df).map (fun r => event_features r.event)) =
            Except.ok m →
      List.Forall₂ (fun (p : Nat × ScoredRow) (b : ℚ) =>
          p.2.interest_score = 0 →
          simf m p.2.group_prefs_text p.1 = Except.ok b)
        (survivorRows user_busy_map selected_users all_user_prefs min_attendees
          events_df).enum s) := by
  refine ⟨?_, ?_, ?_, ?_⟩
  · intro r hr hpos
    have hz := (mem_find_best hr).1
    exact (List.forall₂_iff_zip.1
      (finalsOf_pointwise fit simf _)).2 hz hpos
  · intro e he r hr
    have hz := (mem_find_best hr).1
    have hfin : finalsOf fit simf (survivorRows user_busy_map selected_users
        all_user_prefs min_attendees events_df) =
        (survivorRows user_busy_map selected_users all_user_prefs min_attendees
          events_df).map (fun row => row.interest_score) := by
      unfold finalsOf
      rw [he]
    rw [hfin] at hz
    exact (List.forall₂_iff_zip.1 (forall₂_self_map _ _)).2 hz
  · intro hlen r hr hzero
    rcases List.length_eq_one.mp hlen with ⟨row, hrow⟩
    have hz := (mem_find_best hr).1
    rw [hrow] at hz
    have hfin : finalsOf fit simf [row] =
        [if 0 < row.interest_score then row.interest_score else 1/2] := by
      unfold finalsOf mlScores
      norm_num
    rw [hfin] at hz
    simp only [List.zip_cons_cons, List.zip_nil_right, List.mem_singleton,
      Prod.mk.injEq] at hz
    rw [hz.1] at hzero
    rw [hz.2, if_neg (by simp [hzero])]
  · intro h2 s hs m hm
    unfold mlScores at hs
    rw [if_pos h2, hm] at hs
    have hfa := mapExcept_ok_forall₂ _ _ _ hs
    refine hfa.imp (fun p b hpb hz => ?_)
    rw [if_neg (by simp [hz])] at hpb
    exact hpb

/-- Instantiation of `C4_final_interest_dispatch` at the two-event
fixture: the first ranked occurrence has positive interest_score and
keeps it as final_interest_score. -/
theorem C4_final_interest_dispatch_app :
    outB1 ∈ find_best_slots_for_group fitW simW [evB1, evB2] busyB selB prefsB 1 ∧
    0 < outB1.base.interest_score ∧
    outB1.final_interest_score = outB1.base.interest_score := by
  have hm : outB1 ∈ find_best_slots_for_group fitW simW [evB1, evB2] busyB selB prefsB 1 := by
    rw [evalB]
    exact List.mem_cons_self _ _
  refine ⟨hm, by norm_num [outB1, rowB1], ?_⟩
  exact (C4_final_interest_dispatch fitW simW [evB1, evB2] busyB selB prefsB 1).1
    outB1 hm (by norm_num [outB1, rowB1])

lemma scoreEvent_congr (tot : ℚ) (ev : EventRow) (att : List Str)
    {prefs₁ prefs₂ : Str → Str} (h : ∀ a ∈ att, prefs₁ a = prefs₂ a) :
    scoreEvent prefs₁ tot ev att = scoreEvent prefs₂ tot ev att := by
  have h1 : att.map prefs₁ = att.map prefs₂ := List.map_congr_left h
  have h2 : att.filter (fun a => user_likes_event (event_text ev) (prefs₁ a)) =
      att.filter (fun a => user_likes_event (event_text ev) (prefs₂ a)) :=
    List.filter_congr (fun a ha => by rw [h a ha])
  have h3 : att.map (fun a => userMatchedTags (event_text ev) (prefs₁ a)) =
      att.map (fun a => userMatchedTags (event_text ev) (prefs₂ a)) :=
    List.map_congr_left (fun a ha => by rw [h a ha])
  simp only [scoreEvent, h1, h2, h3]

/-- C10: the output of `find_best_slots_for_group` does not depend on the
tag-map entry of any person who is not an attendee of any occurrence that
passes the `min_attendees` filter: updating that entry to any value leaves
the output unchanged (attendance depends only on the busy map, and every
score reads only the tags of the occurrence's own attendees). -/
theorem C10_tagmap_noninterference {σ : Type} (fit : List Str → Except Unit σ)
    (simf : σ → Str → Nat → Except Unit ℚ) (events_df : List EventRow)
    (user_busy_map : Str → List BusyInterval) (selected_users : List Str)
    (all_user_prefs : Str → Str) (min_attendees : Nat) (p v : Str)
    (hp : ∀ ev ∈ events_df,
      min_attendees ≤ (attendeesOf user_busy_map selected_users ev).length →
      p ∉ attendeesOf user_busy_map selected_users ev) :
    find_best_slots_for_group fit simf events_df user_busy_map selected_users
      all_user_prefs min_attendees =
    find_best_slots_for_group fit simf events_df user_busy_map selected_users
      (Function.update all_user_prefs p v) min_attendees := by
  have hs : survivorRows user_busy_map selected_users all_user_prefs
      min_attendees events_df =
      survivorRows user_busy_map selected_users
        (Function.update all_user_prefs p v) min_attendees events_df := by
    simp only [survivorRows]
    refine List.filterMap_congr ?_
    intro ev hev
    by_cases hlen : min_attendees ≤ (attendeesOf user_busy_map selected_users ev).length
    · rw [if_pos hlen, if_pos hlen]
      congr 1
      refine scoreEvent_congr _ _ _ ?_
      intro a ha
      have hap : a ≠ p := fun hap => hp ev hev hlen (hap ▸ ha)
      exact (Function.update_noteq hap v all_user_prefs).symm
    · rw [if_neg hlen, if_neg hlen]
  unfold find_best_slots_for_group
  rw [hs]

/-- Instantiation of `C10_tagmap_noninterference` at the one-event
fixture: bob is not in the selected group, so rewriting bob's tags leaves
the output unchanged. -/
theorem C10_tagmap_noninterference_app :
    find_best_slots_for_group fitW simW [evW] busyW selW prefsW 1 =
    find_best_slots_for_group fitW simW [evW] busyW selW
      (Function.update prefsW ("bob".toList) ("xx".toList)) 1 :=
  C10_tagmap_noninterference fitW simW [evW] busyW selW prefsW 1
    ("bob".toList) ("xx".toList) (by decide)

/-- C8 (amended): ties in sort_score are NOT broken by attendee_count:
line 287 sorts by the single key sort_score, so the returned list is a
permutation of the scored rows arranged with sort_score non-increasing,
and the arrangement depends only on the sort_score column — any
relabeling of the rows that preserves sort_score (for instance changing
attendee_count) commutes with the ranking. The residual order among
equal sort_scores is an unspecified artifact of the sort implementation,
determined by no row field. -/
theorem C8_single_key_sort {σ : Type} (fit : List Str → Except Unit σ)
    (simf : σ → Str → Nat → Except Unit ℚ) (events_df : List EventRow)
    (user_busy_map : Str → List BusyInterval) (selected_users : List Str)
    (all_user_prefs : Str → Str) (min_attendees : Nat) :
    List.Perm
      (find_best_slots_for_group fit simf events_df user_busy_map selected_users
        all_user_prefs min_attendees)
      (rankedRows fit simf (survivorRows user_busy_map selected_users
        all_user_prefs min_attendees events_df)) ∧
    (find_best_slots_for_group fit simf events_df user_busy_map selected_users
        all_user_prefs min_attendees).Pairwise
      (fun a b => b.sort_score ≤ a.sort_score) ∧
    (∀ g : FinalRow → FinalRow, (∀ x, (g x).sort_score = x.sort_score) →
      sortDesc ((rankedRows fit simf (survivorRows user_busy_map selected_users
          all_user_prefs min_attendees events_df)).map g) =
        (find_best_slots_for_group fit simf events_df user_busy_map selected_users
          all_user_prefs min_attendees).map g) := by
  refine ⟨?_, ?_, ?_⟩
  · unfold find_best_slots_for_group
    split
    · rename_i h
      rw [List.isEmpty_iff.1 h]
      exact List.Perm.nil
    · split
      · rename_i h
        rw [List.isEmpty_iff.1 h]
        exact List.Perm.nil
      · exact sortDesc_perm _
  · unfold find_best_slots_for_group
    split
    · exact List.Pairwise.nil
    · split
      · exact List.Pairwise.nil
      · exact sortDesc_sorted _
  · intro g hg
    unfold find_best_slots_for_group
    split
    · rename_i h
      rw [List.isEmpty_iff.1 h]
      rfl
    · split
      · rename_i h
        rw [List.isEmpty_iff.1 h]
        rfl
      · exact sortDesc_map_comm g hg _

/-- Instantiation of `C8_single_key_sort` with the concrete
score-preserving relabeling `gW` (which shifts attendee_count) at the
two-event fixture. -/
theorem C8_single_key_sort_app :
    (∀ x : FinalRow, (gW x).sort_score = x.sort_score) ∧
    sortDesc ((rankedRows fitW simW (survivorRows busyB selB prefsB 1
        [evB1, evB2])).map gW) =
      (find_best_slots_for_group fitW simW [evB1, evB2] busyB selB prefsB 1).map gW :=
  ⟨fun _ => rfl,
    (C8_single_key_sort fitW simW [evB1, evB2] busyB selB prefsB 1).2.2 gW
      (fun _ => rfl)⟩

/-- Counterexample to C8 as stated: in the two-event fixture both ranked
occurrences tie at sort_score 3/2, yet the occurrence with the SMALLER
attendee_count (1) is ranked before the one with the larger
attendee_count (2): the code sorts by the single key sort_score and never
consults attendee_count. (On this two-row batch numpy argsort runs its
small-array insertion-sort leg, which the embedding reproduces exactly, so
this is the program's actual output order.) -/
theorem C8_tie_break_cex :
    (find_best_slots_for_group fitW simW [evB1, evB2] busyB selB prefsB 1).map
      (fun r => (r.base.attendee_count, r.sort_score)) = [(1, 3/2), (2, 3/2)] := by
  rw [evalB]
  norm_num [outB1, outB2, rowB1, rowB2]

/-- C5: for a parsed weekly template row the generated end timestamp lands
on the day after the start day exactly when the end time-of-day is at most
the start time-of-day or is exactly midnight, and otherwise on the same
day; in particular a row with weekday 2, start 22:00 (minute 1320) and end
02:00 (minute 120) generates, for every Wednesday `dd` in the 30-day
horizon, an occurrence starting at `dd` 22:00 and ending at `dd + 1`
02:00. -/
theorem C5_overnight_rule (d s e : Nat) (row : TemplateRow)
    (hs : row.start_time = some s) (he : row.end_time = some e) :
    processRow d row = some
      { Title := row.event_name
        Start := dt d s
        End := if e ≤ s ∨ e = 0 then dt (d + 1) e else dt d e
        Category := row.category
        Description := row.description } ∧
    (∀ (today : Nat) (rows : List TemplateRow) (n c ds : Str),
      (⟨2, n, some 1320, some 120, c, ds⟩ : TemplateRow) ∈ rows →
      ∀ dd : Nat, today ≤ dd → dd < today + 30 → dd % 7 = 2 →
        ({ Title := n, Start := dt dd 1320, End := dt (dd + 1) 120,
           Category := c, Description := ds } : EventRow) ∈
          load_local_events today rows) := by
  constructor
  · simp only [processRow, hs, he]
    by_cases h1 : e ≤ s ∧ e ≠ 0
    · rw [if_pos h1, if_pos (Or.inl h1.1)]
    · rw [if_neg h1]
      by_cases h2 : e = 0
      · rw [if_pos h2, if_pos (Or.inr h2)]
      · have h3 : ¬(e ≤ s ∨ e = 0) := by
          rcases not_and_or.1 h1 with h | h
          · exact fun hc => hc.elim h h2
          · exact absurd (not_not.1 h) h2
        rw [if_neg h2, if_neg h3]
  · intro today rows n c ds hrow dd h1 h2 h3
    unfold load_local_events
    rw [List.mem_flatMap]
    refine ⟨dd - today, ?_, ?_⟩
    · rw [List.mem_range]
      omega
    · have hdd : today + (dd - today) = dd := by omega
      rw [hdd, List.mem_filterMap]
      refine ⟨⟨2, n, some 1320, some 120, c, ds⟩, ?_, ?_⟩
      · rw [List.mem_filter]
        refine ⟨hrow, ?_⟩
        simp [h3]
      · simp only [processRow]
        norm_num

/-- Instantiation of `C5_overnight_rule` at a concrete Wednesday row:
with today = day 0 (a Monday) the row generates an occurrence on day 2
starting 22:00 and ending 02:00 on day 3. -/
theorem C5_overnight_rule_app :
    ((⟨2, "w".toList, some 1320, some 120, "c".toList, "d".toList⟩ : TemplateRow).start_time
        = some 1320) ∧
    ({ Title := "w".toList, Start := dt 2 1320, End := dt 3 120,
       Category := "c".toList, Description := "d".toList } : EventRow) ∈
      load_local_events 0
        [⟨2, "w".toList, some 1320, some 120, "c".toList, "d".toList⟩] := by
  refine ⟨rfl, ?_⟩
  have h := (C5_overnight_rule 0 1320 120
    ⟨2, "w".toList, some 1320, some 120, "c".toList, "d".toList⟩ rfl rfl).2
  exact h 0 _ ("w".toList) ("c".toList) ("d".toList) (List.mem_singleton.2 rfl) 2
    (by omega) (by omega) (by decide)

/-- Counterexample to C7 as stated: a row whose end-time cell fails to
parse is NOT skipped — the inner handler defaults its end time to
midnight, and the row still generates occurrences (here four Wednesdays
in the horizon), contradicting "produces no occurrence for any day". -/
theorem C7_row_skip_cex :
    load_local_events 0 [⟨2, "n".toList, some 1320, none, "c".toList, []⟩] ≠ [] := by
  decide

/-- C7 (amended): a row whose START time is missing or unparseable is
skipped — it produces no occurrence for any day, and removing it from a
batch leaves the rest of the generated batch unchanged (the generator is
a total function, so the failure never propagates); a row whose END time
is missing or unparseable is kept, its end time defaulting to midnight so
that its occurrences end at 00:00 of the day after their start. -/
theorem C7_row_skip_amended :
    (∀ (d : Nat) (row : TemplateRow), row.start_time = none →
      processRow d row = none) ∧
    (∀ (today : Nat) (rows₁ rows₂ : List TemplateRow) (row : TemplateRow),
      row.start_time = none →
      load_local_events today (rows₁ ++ row :: rows₂) =
        load_local_events today (rows₁ ++ rows₂)) ∧
    (∀ (d : Nat) (row : TemplateRow) (s : Nat), row.start_time = some s →
      row.end_time = none →
      processRow d row = some
        { Title := row.event_name, Start := dt d s, End := dt (d + 1) 0,
          Category := row.category, Description := row.description }) := by
  refine ⟨?_, ?_, ?_⟩
  · intro d row h
    simp [processRow, h]
  · intro today r1 r2 row h
    unfold load_local_events
    refine congrArg _ (funext fun i => ?_)
    rw [List.filter_append, List.filter_append, List.filter_cons]
    by_cases hw : (row.weekday == (today + i) % 7) = true
    · rw [if_pos hw, List.filterMap_append, List.filterMap_append]
      have hnone : processRow (today + i) row = none := by
        simp [processRow, h]
      rw [List.filterMap_cons_none hnone]
    · rw [if_neg hw]
  · intro d row s hs he
    simp only [processRow, hs, he]
    norm_num

/-- Instantiation of `C7_row_skip_amended`: a concrete row with a
missing end time is kept with its end defaulted to midnight of the next
day. -/
theorem C7_row_skip_amended_app :
    ((⟨2, "n".toList, some 1320, none, "c".toList, []⟩ : TemplateRow).start_time
        = some 1320) ∧
    processRow 2 ⟨2, "n".toList, some 1320, none, "c".toList, []⟩ = some
      { Title := "n".toList, Start := dt 2 1320, End := dt 3 0,
        Category := "c".toList, Description := [] } :=
  ⟨rfl, C7_row_skip_amended.2.2 2 ⟨2, "n".toList, some 1320, none, "c".toList, []⟩
    1320 rfl rfl⟩

end Meetly
